import Mathlib

/-!
# A verification development for the Sypnex OS virtual file system engine

This file gives a shallow embedding, in Lean 4, of the virtual file system
engine implemented in `core/virtual_file_manager.py` (class
`VirtualFileManager` plus the free function `validate_filename`), together
with the HTTP rename entry point from `routes/virtual_files.py`, and proves
or refutes a set of behavioural claims about it.

Modelling conventions:

* Python `str` values (paths, names) are modelled as `List Char`; Python
  `bytes` as `List Nat`.
* The SQLite database is modelled as an explicit record `DB` holding the
  `virtual_files` rows, the `file_chunks` rows and the AUTOINCREMENT
  counter.  Columns that no operation of the engine ever branches on
  (`created_at`, `updated_at`, `accessed_at`, `mime_type`, and the separate
  `file_metadata` table) are omitted from the model.
* `sqlite3` is used by the source with its Python default configuration, in
  which `PRAGMA foreign_keys` is OFF; the `ON DELETE CASCADE` clause
  declared on `file_chunks` therefore never fires, and a SQL `DELETE FROM
  virtual_files` removes rows from `virtual_files` only.  The model mirrors
  this: deletions do not touch the chunk table.
* A `with sqlite3.connect(...)` block commits on normal exit and rolls the
  open transaction back when an exception escapes the block; the model
  mirrors this by returning the caller's database unchanged on the
  exception paths.
* `hashlib.sha256` is an external library; it is modelled by an abstract
  function `sha256hex` of the full byte sequence fed to the hasher.  Its
  concrete output values are irrelevant to every claim; the model only
  guarantees the two facts used below: the digest is a function of the fed
  bytes, and a hex digest is never the empty string.
-/

/-- Python `str` modelled as a list of characters. -/
abbrev Str := List Char

/-- Python `bytes` modelled as a list of byte values. -/
abbrev Bytes := List Nat

/-- Convenience conversion from a Lean string literal to the `Str` model. -/
def pathOf (s : String) : Str := s.data

/-- Abstract model of `hashlib.sha256(...).hexdigest()` for the byte
sequence fed to the hasher.  Only two properties of the real digest are
relied on anywhere below: it is a function of the fed bytes, and it is
never the empty string (a real hex digest has 64 characters).  The model
realises both by tagging a rendering of the input. -/
def sha256hex (bs : Bytes) : String := "sha256:" ++ toString bs

/-! ## Path normalisation (`_normalize_path`, `_get_parent_path`,
`_get_name_from_path`) -/

/-- Helper for `splitOnSlash`: returns the piece accumulated before the
first separator boundary (scanning from the right) and the completed
pieces after it. -/
def splitAux : Str → Str × List Str
  | [] => ([], [])
  | c :: rest =>
    let r := splitAux rest
    if c = '/' then ([], r.1 :: r.2) else (c :: r.1, r.2)

/-- Python `s.split('/')`: the list of (possibly empty) pieces between
separators.  `''.split('/') = ['']`, `'/'.split('/') = ['', '']`. -/
def splitOnSlash (s : Str) : List Str :=
  (splitAux s).1 :: (splitAux s).2

/-- Python `'/'.join(parts)`. -/
def joinSlash : List Str → Str
  | [] => []
  | [x] => x
  | x :: y :: rest => x ++ '/' :: joinSlash (y :: rest)

/-- Model of `VirtualFileManager._normalize_path`: split on `/`, drop empty parts,
rejoin; keep a leading separator exactly when the input had one; `/` is
returned unchanged. -/
def normalizePath (path : Str) : Str :=
  if path = pathOf ("/") then pathOf ("/")
  else
    let parts := (splitOnSlash path).filter (fun part => part ≠ [])
    if path.head? = some '/' then '/' :: joinSlash parts
    else joinSlash parts

/-- Model of `VirtualFileManager._get_parent_path`. -/
def getParentPath (path : Str) : Option Str :=
  if path = pathOf ("/") then none
  else
    let normalized := normalizePath path
    if normalized = pathOf ("/") then none
    else
      let parts := splitOnSlash normalized
      if parts.length = 1 then some (pathOf ("/"))
      else
        let parent := joinSlash (parts.dropLast)
        if parent = [] then some (pathOf ("/")) else some parent

/-- Model of `VirtualFileManager._get_name_from_path`. -/
def getNameFromPath (path : Str) : Str :=
  if path = pathOf ("/") then pathOf ("root")
  else
    let normalized := normalizePath path
    match (splitOnSlash normalized).getLast? with
    | some n => n
    | none => []

/-! ## Filename validation (`validate_filename`) -/

/-- The reserved character list of `validate_filename`. -/
def reservedChars : List Char := ['<', '>', ':', '"', '|', '?', '*', '\\']

/-- Python's substring test `needle in haystack`. -/
def containsSub (needle : Str) : Str → Bool
  | [] => needle.isPrefixOf []
  | c :: rest => needle.isPrefixOf (c :: rest) || containsSub needle rest

/-- Model of `validate_filename(filename)` from `core/virtual_file_manager.py`:
returns `(is_valid, error_message)`.  Messages that Python builds with an
f-string interpolating the offending character or `repr` are rendered with
plain concatenation here; every acceptance decision is modelled exactly. -/
def validate_filename (filename : Str) : Bool × String :=
  if filename = [] then (false, "Filename cannot be empty")
  else if filename.length > 255 then
    (false, "Filename too long (" ++ toString filename.length ++
      " characters). Maximum length is 255 characters")
  else
    match filename.find? (fun c => c.toNat > 127) with
    | some c => (false, "Filename contains non-ASCII character: " ++ String.mk [c])
    | none =>
      match filename.find? (fun c => c.toNat < 32 || c.toNat = 127) with
      | some c =>
        (false, "Filename contains invalid control character: " ++ toString c.toNat)
      | none =>
        match reservedChars.find? (fun c => filename.contains c) with
        | some c => (false, "Filename contains reserved character: " ++ String.mk [c])
        | none =>
          if filename.head? = some ' ' || filename.getLast? = some ' ' then
            (false, "Filename cannot start or end with spaces")
          else if filename.head? = some '.' || filename.getLast? = some '.' then
            (false, "Filename cannot start or end with dots")
          else if containsSub (pathOf ("..")) filename then
            (false, "Filename cannot contain '..' (path traversal prevention)")
          else if filename.contains '/' then
            (false, "Filename cannot contain '/' (path separator)")
          else (true, "")

/-! ## The database model

One record per row of the two tables the engine manipulates.  `is_chunked`
is nullable in SQL (rows inserted before migration 1, and the streaming
placeholder row, carry NULL); it is therefore an `Option Bool` here, and
Python truthiness of the column value is `= some true`. -/

/-- A row of the `virtual_files` table.  The nullable `hash` TEXT column is
modelled as a plain `String`, with `""` standing for SQL NULL: no operation
of the engine ever distinguishes a NULL hash from an empty-string hash. -/
structure FileRow where
  id : Nat
  path : Str
  name : Str
  parent_path : Option Str
  is_directory : Bool
  size : Nat
  content : Option Bytes
  hash : String
  is_chunked : Option Bool
deriving DecidableEq, Repr

/-- A row of the `file_chunks` table. -/
structure ChunkRow where
  file_id : Nat
  chunk_index : Nat
  chunk_data : Bytes
  chunk_size : Nat
deriving DecidableEq, Repr

/-- The SQLite database backing the virtual file system.  `nextId` models
the AUTOINCREMENT counter for `virtual_files.id`. -/
structure DB where
  files : List FileRow
  chunks : List ChunkRow
  nextId : Nat
deriving DecidableEq, Repr

/-- The root row inserted by `_ensure_root_directory` (after the schema
migrations have run, so the `is_chunked` column takes its declared
`DEFAULT 0`). -/
def rootRow : FileRow :=
  { id := 1, path := pathOf ("/"), name := pathOf ("root"), parent_path := none
    is_directory := true, size := 0, content := none, hash := ""
    is_chunked := some false }

/-- A freshly initialised store: only the root directory exists
(AUTOINCREMENT ids start at 1). -/
def initDB : DB := { files := [rootRow], chunks := [], nextId := 2 }

/-- Model of `_path_exists`: `SELECT COUNT(*) FROM virtual_files WHERE path = ?`. -/
def pathExists (db : DB) (path : Str) : Bool :=
  db.files.any (fun r => r.path = path)

/-- Model of `_is_directory`: `SELECT is_directory FROM virtual_files WHERE path = ?`;
a missing row is reported as not-a-directory. -/
def isDirectoryDB (db : DB) (path : Str) : Bool :=
  match db.files.find? (fun r => r.path = path) with
  | some r => r.is_directory
  | none => false

/-- Model of `SELECT chunk_data FROM file_chunks WHERE file_id = ? ORDER BY
chunk_index`: the stable sort determinises what SQL leaves open for equal
keys. -/
def chunkDataFor (db : DB) (fid : Nat) : List Bytes :=
  ((db.chunks.filter (fun c => c.file_id = fid)).insertionSort
    (fun a b => a.chunk_index ≤ b.chunk_index)).map (fun c => c.chunk_data)

/-- Concatenation of a list of byte strings (`b''.join(...)`). -/
def joinBytes (l : List Bytes) : Bytes := l.flatten

/-! ## `create_directory` and `create_file` -/

/-- The parent-path fixup shared by the create operations: `parent_path`
is forced to `/` for children of root (`if parent_path is None and
normalized_path != '/'`). -/
def fixParent (normalized : Str) (parent : Option Str) : Option Str :=
  if parent = none ∧ normalized ≠ pathOf ("/") then some (pathOf ("/")) else parent

/-- The structural pre-checks shared by `create_directory`, `create_file`
and `create_file_streaming`: the (fixed-up) parent must exist and the
target must not.  Mirrors `if parent_path and not self._path_exists(...)`
(`None` is falsy, so a `none` parent skips the check) and
`if self._path_exists(normalized_path)`. -/
def createChecksOK (db : DB) (normalized : Str) (parent : Option Str) : Bool :=
  (match parent with
   | some pp => pathExists db pp
   | none => true) && !(pathExists db normalized)

/-- Model of `create_directory(path)`. -/
def create_directory (db : DB) (path : Str) : Bool × DB :=
  let normalized := normalizePath path
  let parent := fixParent normalized (getParentPath normalized)
  let name := getNameFromPath normalized
  if createChecksOK db normalized parent then
    (true,
      { db with
          files := db.files ++
            [{ id := db.nextId, path := normalized, name := name
               parent_path := parent, is_directory := true, size := 0
               content := none, hash := "", is_chunked := some false }]
          nextId := db.nextId + 1 })
  else (false, db)

/-- Model of `create_file(path, content)`.  Note the conditional hash: Python
computes `hashlib.sha256(content).hexdigest() if content else ''`, so the
stored hash of an empty file is the empty string, not the digest of `b''`. -/
def create_file (db : DB) (path : Str) (content : Bytes) : Bool × DB :=
  let normalized := normalizePath path
  let parent := fixParent normalized (getParentPath normalized)
  let name := getNameFromPath normalized
  if createChecksOK db normalized parent then
    let contentHash := if content ≠ [] then sha256hex content else ""
    (true,
      { db with
          files := db.files ++
            [{ id := db.nextId, path := normalized, name := name
               parent_path := parent, is_directory := false
               size := content.length, content := some content
               hash := contentHash, is_chunked := some false }]
          nextId := db.nextId + 1 })
  else (false, db)

/-! ## The chunked streaming engine (`create_file_streaming`) -/

/-- The constant `chunk_storage_size = 1024 * 1024`: the size of stored chunk rows. -/
def chunkStorageSize : Nat := 1024 * 1024

/-- The `1024 * 1024` small-file threshold hard-coded in
`create_file_streaming`: content at least this large is stored chunked. -/
def smallFileThreshold : Nat := 1024 * 1024

/-- The 64 KiB window used by `read_file_streaming` to slice a
non-chunked blob. -/
def streamWindowSize : Nat := 64 * 1024

/-- Slice a list into consecutive pieces of `n` elements, the last piece
possibly shorter (the `while offset < len(data)` slicing loop).  `max n 1`
only affects `n = 0`, which no call site of the source reaches (its slice
size is the constant `chunk_storage_size`). -/
def chunksOfAux (n : Nat) : Nat → List α → List (List α)
  | 0, _ => []
  | _ + 1, [] => []
  | fuel + 1, x :: xs =>
    (x :: xs).take (max n 1) :: chunksOfAux n fuel ((x :: xs).drop (max n 1))

/-- See `chunksOfAux`; the fuel `xs.length` is always sufficient because
every step consumes at least one element (structural recursion is used
instead of well-founded recursion so that concrete instances reduce). -/
def chunksOf (n : Nat) (xs : List α) : List (List α) :=
  chunksOfAux n xs.length xs

/-- The `while len(current_chunk_buffer) >= chunk_storage_size` loop:
splits off full `n`-sized chunks, returning them together with the
remaining (shorter) buffer.  The `1 ≤ n` guard only affects `n = 0`,
where the source loop would not terminate; its `n` is a positive
constant. -/
def drainFullAux (n : Nat) : Nat → Bytes → List Bytes × Bytes
  | 0, buf => ([], buf)
  | fuel + 1, buf =>
    if 1 ≤ n ∧ n ≤ buf.length then
      let rest := drainFullAux n fuel (buf.drop n)
      (buf.take n :: rest.1, rest.2)
    else ([], buf)

/-- See `drainFullAux`; the fuel `buf.length` is always sufficient
because every iteration drops `n ≥ 1` elements. -/
def drainFull (n : Nat) (buf : Bytes) : List Bytes × Bytes :=
  drainFullAux n buf.length buf

/-- A Python file stream, as seen through successive `read(chunk_size)`
calls: `reads` are the byte strings the calls return, in order.  After
they are exhausted the next call either raises (`raisesAfter = true`,
modelling an I/O error or cancellation) or signals EOF by returning
`b''`.  A `b''` element inside `reads` also stops the consumer loop
(`if not chunk: break`). -/
structure PyStream where
  reads : List Bytes
  raisesAfter : Bool

/-- A Python exception escaping an operation. -/
inductive PyExc where
  | nameError (missing : String)
  | streamError
deriving DecidableEq, Repr

deriving instance DecidableEq for Except

/-- The local state of the streaming loop of `create_file_streaming`. -/
structure SLoop where
  total : Nat
  fed : Bytes
  smallBuf : List Bytes
  curBuf : Bytes
  stored : List Bytes
deriving DecidableEq, Repr

/-- The loop state before the first `read`. -/
def initLoop : SLoop :=
  { total := 0, fed := [], smallBuf := [], curBuf := [], stored := [] }

/-- One iteration of the streaming loop for a non-empty chunk `c`:
either convert the small-file buffer to chunked storage (threshold just
crossed with buffered data), keep buffering (still small), or append to
the current chunk buffer and store every full `chunk_storage_size`
slice. -/
def stepChunk (st : SLoop) (c : Bytes) : SLoop :=
  let total' := st.total + c.length
  let fed' := st.fed ++ c
  if total' ≥ smallFileThreshold ∧ st.smallBuf ≠ [] then
    let accumulated := joinBytes st.smallBuf ++ st.curBuf ++ c
    { total := total', fed := fed', smallBuf := [], curBuf := []
      stored := st.stored ++ chunksOf chunkStorageSize accumulated }
  else if total' < smallFileThreshold then
    { total := total', fed := fed', smallBuf := st.smallBuf ++ [c]
      curBuf := st.curBuf, stored := st.stored }
  else
    let drained := drainFull chunkStorageSize (st.curBuf ++ c)
    { total := total', fed := fed', smallBuf := st.smallBuf
      curBuf := drained.2, stored := st.stored ++ drained.1 }

/-- The `while True` read loop.  `none` means the source stream raised. -/
def runStream (st : SLoop) : List Bytes → Bool → Option SLoop
  | [], raises => if raises then none else some st
  | c :: rest, raises =>
    if c = [] then some st else runStream (stepChunk st c) rest raises

/-- Model of `create_file_streaming(path, file_stream, chunk_size)`.

The placeholder `virtual_files` row, the chunk inserts and the final
`UPDATE` all happen inside one `with sqlite3.connect(...)` block whose
single `commit` is the last statement, so the model commits the net
effect of the transaction.  When the source stream raises, that block
rolls the open transaction back; the `except` handler then evaluates
`eprint(...)` first — but `eprint` is an unbound name in
`core/virtual_file_manager.py` (only `utils/print_interceptor.py` can
install it as a builtin, and no code in the repository ever calls
`setup_print_interceptor`), so a `NameError` escapes the handler before
the cleanup code runs, and the caller sees the pre-call database. -/
def create_file_streaming (db : DB) (path : Str) (stream : PyStream) :
    Except PyExc Bool × DB :=
  let normalized := normalizePath path
  let parent := fixParent normalized (getParentPath normalized)
  let name := getNameFromPath normalized
  if !(createChecksOK db normalized parent) then (Except.ok false, db)
  else
    let fid := db.nextId
    match runStream initLoop stream.reads stream.raisesAfter with
    | none => (Except.error (PyExc.nameError "eprint"), db)
    | some st =>
      let finalHash := sha256hex st.fed
      if st.total ≥ smallFileThreshold then
        let stored := st.stored ++ (if st.curBuf ≠ [] then [st.curBuf] else [])
        (Except.ok true,
          { db with
              files := db.files ++
                [{ id := fid, path := normalized, name := name
                   parent_path := parent, is_directory := false
                   size := st.total, content := none, hash := finalHash
                   is_chunked := some true }]
              chunks := db.chunks ++ stored.enum.map (fun p =>
                { file_id := fid, chunk_index := p.1, chunk_data := p.2
                  chunk_size := p.2.length })
              nextId := fid + 1 })
      else
        let fullContent := joinBytes st.smallBuf
        (Except.ok true,
          { db with
              files := db.files ++
                [{ id := fid, path := normalized, name := name
                   parent_path := parent, is_directory := false
                   size := st.total, content := some fullContent
                   hash := finalHash, is_chunked := some false }]
              nextId := fid + 1 })

/-- The metadata dict returned by `read_file_streaming` (no content). -/
structure StreamMeta where
  path : Str
  name : Str
  size : Nat
  hash : String
  is_chunked : Bool
deriving DecidableEq, Repr

/-- Model of `read_file_streaming(path)`: metadata plus the finite sequence of
byte segments its generator yields — the stored chunks in index order
for a chunked node, or the inline blob sliced into 64 KiB windows
otherwise (nothing for a NULL or empty blob, per
`if content_row and content_row[0]`). -/
def read_file_streaming (db : DB) (path : Str) :
    Option (StreamMeta × List Bytes) :=
  let normalized := normalizePath path
  match db.files.find? (fun r => r.path = normalized && r.is_directory = false) with
  | none => none
  | some r =>
    let segments :=
      if r.is_chunked = some true then chunkDataFor db r.id
      else
        match r.content with
        | some content =>
          if content ≠ [] then chunksOf streamWindowSize content else []
        | none => []
    some
      ({ path := normalized, name := r.name, size := r.size, hash := r.hash
         is_chunked := r.is_chunked = some true }, segments)

/-! ## `read_file` and `write_file` -/

/-- The fields of the dict returned by `read_file` that the claims are
about. -/
structure ReadResult where
  path : Str
  name : Str
  size : Nat
  content : Option Bytes
  hash : String
  is_chunked : Bool
deriving DecidableEq, Repr

/-- Model of `read_file(path)`: `SELECT ... WHERE path = ? AND is_directory = 0`;
if the row's `is_chunked` is truthy the content is reassembled from the
chunk table in `chunk_index` order, otherwise the inline `content` column
(possibly NULL) is returned as-is. -/
def read_file (db : DB) (path : Str) : Option ReadResult :=
  let normalized := normalizePath path
  match db.files.find? (fun r => r.path = normalized && r.is_directory = false) with
  | none => none
  | some r =>
    let content : Option Bytes :=
      if r.is_chunked = some true then some (joinBytes (chunkDataFor db r.id))
      else r.content
    some
      { path := r.path, name := r.name, size := r.size, content := content
        hash := r.hash, is_chunked := r.is_chunked = some true }

/-- Model of `write_file(path, content)`: `UPDATE virtual_files SET content = ?,
size = ?, hash = ? WHERE path = ? AND is_directory = 0`.  The update
touches neither `is_chunked` nor the `file_chunks` table; the row count of
the update is the returned success flag. -/
def write_file (db : DB) (path : Str) (content : Bytes) : Bool × DB :=
  let normalized := normalizePath path
  if !(pathExists db normalized) then (false, db)
  else
    let contentHash := sha256hex content
    let hit := fun (r : FileRow) => r.path = normalized && r.is_directory = false
    let rowcount := (db.files.filter hit).length
    let db' :=
      { db with
          files := db.files.map (fun r =>
            if hit r then
              { r with content := some content, size := content.length, hash := contentHash }
            else r) }
    (rowcount > 0, db')

/-! ## `delete_path` -/

/-- One expansion level of the recursive CTE of `_get_all_children`:
the rows whose `parent_path` is one of the frontier paths. -/
def childrenLevel (db : DB) (frontier : List Str) : List Str :=
  (db.files.filter (fun r => frontier.any (fun q => r.parent_path = some q))).map
    (fun r => r.path)

/-- Fuelled iteration of the CTE's working table.  The SQL `UNION ALL`
recursion stops when a level is empty; on a `parent_path` cycle it would
never stop (and the Python call would not return), which the fuel merely
truncates — every state considered in this development is acyclic and
shallower than the row count. -/
def allChildrenAux (db : DB) : Nat → List Str → List Str
  | 0, _ => []
  | fuel + 1, frontier =>
    let next := childrenLevel db frontier
    if next = [] then [] else next ++ allChildrenAux db fuel next

/-- Model of `_get_all_children(path)`: every path reachable from `path` through
`parent_path` links, level by level. -/
def allChildren (db : DB) (path : Str) : List Str :=
  allChildrenAux db (db.files.length + 1) [path]

/-- Model of `_delete_single_path(path)`: `DELETE FROM virtual_files WHERE path =
?`.  With the Python `sqlite3` default of `PRAGMA foreign_keys = OFF`
(nothing in the repository ever turns it on), the `ON DELETE CASCADE`
declared on `file_chunks` does not fire: only `virtual_files` rows are
removed. -/
def deleteSinglePath (db : DB) (path : Str) : Bool × DB :=
  let rowcount := (db.files.filter (fun r => r.path = path)).length
  (rowcount > 0, { db with files := db.files.filter (fun r => r.path ≠ path) })

/-- Model of `delete_path(path)`: for a directory, delete all recursively
enumerated children first, then the node itself. -/
def delete_path (db : DB) (path : Str) : Bool × DB :=
  let normalized := normalizePath path
  if !(pathExists db normalized) then (false, db)
  else
    let db1 :=
      if isDirectoryDB db normalized then
        (allChildren db normalized).foldl (fun d c => (deleteSinglePath d c).2) db
      else db
    deleteSinglePath db1 normalized

/-! ## `rename_path` and the HTTP rename route -/

/-- ASCII lower-casing, as SQLite's default `LIKE` applies to `A`–`Z`. -/
def lowerChar (c : Char) : Char :=
  if 'A' ≤ c ∧ c ≤ 'Z' then Char.ofNat (c.toNat + 32) else c

/-- Fuelled SQLite `LIKE` matching (default behaviour, ASCII
case-insensitive): `%` matches any sequence, `_` any single character.
Every recursive call shrinks `pattern.length + s.length`, so the fuel
used by `likeMatch` is always sufficient. -/
def likeMatchAux : Nat → Str → Str → Bool
  | 0, _, _ => false
  | _ + 1, [], [] => true
  | _ + 1, [], _ :: _ => false
  | fuel + 1, '%' :: ps, s =>
    likeMatchAux fuel ps s ||
      (match s with
       | [] => false
       | _ :: s' => likeMatchAux fuel ('%' :: ps) s')
  | fuel + 1, '_' :: ps, s =>
    (match s with
     | [] => false
     | _ :: s' => likeMatchAux fuel ps s')
  | fuel + 1, p :: ps, s =>
    (match s with
     | [] => false
     | c :: s' => lowerChar p = lowerChar c && likeMatchAux fuel ps s')

/-- SQLite `path LIKE pattern` with the default collation. -/
def likeMatch (pattern s : Str) : Bool :=
  likeMatchAux (pattern.length + s.length + 1) pattern s

/-- The `UPDATE virtual_files SET path = ?, name = ?, parent_path = ?
WHERE path = ?` statement, including the UNIQUE(path) constraint: if a
row other than the updated one already holds the new path, the statement
raises `IntegrityError` (modelled as `Except.error`). -/
def updatePathChecked (db : DB) (oldP newP newName : Str)
    (newParent : Option Str) : Except Unit DB :=
  if db.files.any (fun r => r.path = newP && r.path ≠ oldP) then Except.error ()
  else
    Except.ok
      { db with
          files := db.files.map (fun r =>
            if r.path = oldP then
              { r with path := newP, name := newName, parent_path := newParent }
            else r) }

/-- Apply the computed update tuples in order, aborting on the first
constraint violation. -/
def applyUpdates : DB → List (Str × Str × Str × Option Str) → Except Unit DB
  | db, [] => Except.ok db
  | db, (oldP, newP, newName, newParent) :: rest =>
    match updatePathChecked db oldP newP newName newParent with
    | Except.error e => Except.error e
    | Except.ok db' => applyUpdates db' rest

/-- Model of `rename_path(old_path, new_path)`.

For a directory, the rows to rewrite are fetched with `path = old OR
path LIKE old || '/%'` ordered by `LENGTH(path) DESC` (stable sort here,
determinising what SQL leaves open for equal lengths); each row's new
path replaces the `old` prefix by `new` via Python slicing
(`path[len(old):]`).  A UNIQUE-constraint violation during the update
loop raises `IntegrityError`; the `with` block rolls the transaction
back and the `except` handler, whose first statement calls the unbound
name `eprint`, lets a `NameError` escape — the database keeps its
pre-call state either way. -/
def rename_path (db : DB) (old_path new_path : Str) : Except PyExc Bool × DB :=
  let oldN := normalizePath old_path
  let newN := normalizePath new_path
  if !(pathExists db oldN) then (Except.ok false, db)
  else if pathExists db newN then (Except.ok false, db)
  else
    let newParent := getParentPath newN
    let newName := getNameFromPath newN
    let parentOK :=
      match newParent with
      | some pp => pp = pathOf ("/") || pathExists db pp
      | none => false
    if !parentOK then (Except.ok false, db)
    else
      let isDir :=
        match db.files.find? (fun r => r.path = oldN) with
        | some r => r.is_directory
        | none => false
      let updates :=
        if isDir then
          let targets :=
            ((db.files.filter (fun r =>
                r.path = oldN || likeMatch (oldN ++ pathOf ("/%")) r.path)).insertionSort
              (fun a b => b.path.length ≤ a.path.length)).map (fun r => r.path)
          targets.map (fun p =>
            if p = oldN then (p, newN, newName, newParent)
            else
              let newItemPath := newN ++ p.drop oldN.length
              (p, newItemPath, getNameFromPath newItemPath, getParentPath newItemPath))
        else [(oldN, newN, newName, newParent)]
      match applyUpdates db updates with
      | Except.error _ => (Except.error (PyExc.nameError "eprint"), db)
      | Except.ok db' =>
        if updates.length = 0 then (Except.ok false, db) else (Except.ok true, db')

/-- Model of `get_file_info(path)`: the metadata row, no content. -/
def get_file_info (db : DB) (path : Str) : Option FileRow :=
  db.files.find? (fun r => r.path = normalizePath path)

/-- The HTTP rename endpoint `rename_virtual_item` from
`routes/virtual_files.py`: missing or empty body fields give a 400; a
leading `/` is prepended when absent; the last segment of the new path
must pass `validate_filename` (400 otherwise, the store untouched); the
source must exist (404) and the destination must not (400); only then is
`rename_path` invoked. -/
def rename_route (db : DB) (old_path new_path : Option Str) : Nat × DB :=
  match old_path, new_path with
  | some o, some n =>
    if o = [] || n = [] then (400, db)
    else
      let o := if o.head? = some '/' then o else '/' :: o
      let n := if n.head? = some '/' then n else '/' :: n
      let newFilename := (splitOnSlash n).getLastD []
      if !(validate_filename newFilename).1 then (400, db)
      else
        match get_file_info db o with
        | none => (404, db)
        | some _ =>
          match get_file_info db n with
          | some _ => (400, db)
          | none =>
            match rename_path db o n with
            | (Except.ok true, db') => (200, db')
            | (Except.ok false, db') => (500, db')
            | (Except.error _, db') => (500, db')
  | _, _ => (400, db)

/-! ## Well-formedness, canonical paths, and a concrete demonstration
state -/

/-- Chunk ownership well-formedness: every chunk row's owner id is below
the AUTOINCREMENT counter (true of every state the engine produces, and
exactly what makes a freshly allocated id own no stale chunks). -/
def WFchunks (db : DB) : Prop :=
  ∀ c ∈ db.chunks, c.file_id < db.nextId

/-- No two adjacent separators anywhere in the string. -/
def noAdjSlash : Str → Bool
  | [] => true
  | [_] => true
  | a :: b :: rest => !(a = '/' && b = '/') && noAdjSlash (b :: rest)

/-- Canonical form of a stored path: either the root `/`, or a string
that starts with `/`, does not end with `/`, and has no empty segment
(no `//`). -/
def canonicalPath (p : Str) : Bool :=
  p = pathOf ("/") ||
    (p.head? = some '/' && p.getLast? ≠ some '/' && noAdjSlash p)

/-- The store invariant of the amended claim C6: stored paths are unique
and canonical. -/
def InvDB (db : DB) : Prop :=
  (db.files.map (fun r => r.path)).Nodup ∧
    ∀ r ∈ db.files, canonicalPath r.path = true

/-- A demonstration state: `/a` and `/a/b` created through
`create_directory`, plus a file `/a/b/c.txt` stored in chunked mode
whose logical content `[1, 2, 3]` lives in two chunk rows (the state any
over-threshold streaming create produces, scaled down to keep the rows
readable). -/
def dbSetup : DB :=
  (create_directory (create_directory initDB (pathOf ("/a"))).2 (pathOf ("/a/b"))).2

/-- The chunked `virtual_files` row of the demonstration state. -/
def chunkedDemoFile : FileRow :=
  { id := 4, path := pathOf ("/a/b/c.txt"), name := pathOf ("c.txt")
    parent_path := some (pathOf ("/a/b")), is_directory := false, size := 3
    content := none, hash := sha256hex [1, 2, 3], is_chunked := some true }

/-- The demonstration state (see `dbSetup`). -/
def dbDemo : DB :=
  { files := dbSetup.files ++ [chunkedDemoFile]
    chunks := [{ file_id := 4, chunk_index := 0, chunk_data := [1, 2], chunk_size := 2 },
               { file_id := 4, chunk_index := 1, chunk_data := [3], chunk_size := 1 }]
    nextId := 5 }

/-- The invariant of the streaming read loop of `create_file_streaming`:
the bytes fed to the running hash are exactly the bytes distributed over
the stored chunks, the small-file buffer and the pending chunk buffer
(in that order); the byte counter matches; strictly below the threshold
nothing has been chunked yet; at or above it the small-file buffer has
been converted. -/
def LoopInv (st : SLoop) : Prop :=
  st.fed = joinBytes st.stored ++ joinBytes st.smallBuf ++ st.curBuf ∧
  st.total = st.fed.length ∧
  (st.total < smallFileThreshold → st.stored = [] ∧ st.curBuf = []) ∧
  (smallFileThreshold ≤ st.total → st.smallBuf = [])

/-- The final `virtual_files` row committed by `create_file_streaming`
for a file stored in chunked mode (content stays NULL, hash over the fed
bytes, `is_chunked = 1`). -/
def streamedChunkedRow (db : DB) (path : Str) (st : SLoop) : FileRow :=
  { id := db.nextId, path := normalizePath path
    name := getNameFromPath (normalizePath path)
    parent_path := fixParent (normalizePath path) (getParentPath (normalizePath path))
    is_directory := false, size := st.total, content := none
    hash := sha256hex st.fed, is_chunked := some true }

/-- The final `virtual_files` row committed by `create_file_streaming`
for a small file stored inline (`is_chunked = 0`). -/
def streamedSmallRow (db : DB) (path : Str) (st : SLoop) : FileRow :=
  { id := db.nextId, path := normalizePath path
    name := getNameFromPath (normalizePath path)
    parent_path := fixParent (normalizePath path) (getParentPath (normalizePath path))
    is_directory := false, size := st.total
    content := some (joinBytes st.smallBuf)
    hash := sha256hex st.fed, is_chunked := some false }

/-- The `file_chunks` rows committed for a chunked file: one row per
stored chunk, `chunk_index` enumerating insertion order. -/
def chunkRowsFor (fid : Nat) (stored : List Bytes) : List ChunkRow :=
  stored.enum.map (fun p =>
    { file_id := fid, chunk_index := p.1, chunk_data := p.2
      chunk_size := p.2.length })

/-! # Theorems -/

/-- The modelled digest is never the empty string (as for the real
`hexdigest`, which always returns 64 hex characters). -/
theorem sha256hex_ne_empty (bs : Bytes) : sha256hex bs ≠ "" := by
  intro h
  have h2 : ("sha256:" ++ toString bs).length = ("" : String).length := by
    rw [← h]; rfl
  rw [String.length_append] at h2
  have h7 : ("sha256:" : String).length = 7 := by decide
  have h0 : ("" : String).length = 0 := by decide
  omega

/-- C1.  Claimed: `write_file` on a chunked node replaces the content
representation, deletes the old chunk set, leaves chunked mode, and a
subsequent `read_file` returns the new content.  The code does none of
this: the `UPDATE` touches neither `is_chunked` nor `file_chunks`, so on
the chunked node `/a/b/c.txt` (stored chunks `[1,2]`, `[3]`), writing
`[9]` reports success, the node stays chunked with its old chunk rows,
and `read_file` still returns the old bytes `[1, 2, 3]`, not `[9]`. -/
theorem C1_write_file_chunked_stale_read :
    (write_file dbDemo (pathOf ("/a/b/c.txt")) [9]).1 = true ∧
    (write_file dbDemo (pathOf ("/a/b/c.txt")) [9]).2.chunks = dbDemo.chunks ∧
    ((write_file dbDemo (pathOf ("/a/b/c.txt")) [9]).2.files.find?
        (fun r => r.path = pathOf ("/a/b/c.txt"))).map (fun r => r.is_chunked)
      = some (some true) ∧
    (read_file (write_file dbDemo (pathOf ("/a/b/c.txt")) [9]).2
        (pathOf ("/a/b/c.txt"))).map (fun r => r.content)
      = some (some [1, 2, 3]) ∧
    some (some [1, 2, 3]) ≠ some (some [9]) := by
  decide

/-- C2.  Claimed: deleting a directory also deletes every chunk row
owned by a chunked descendant, leaving no orphaned chunk rows.  The code
only ever issues `DELETE FROM virtual_files` (and `PRAGMA foreign_keys`
is never enabled, so the declared `ON DELETE CASCADE` is inert): deleting
`/a` from the demonstration state removes all three nodes of the subtree
but leaves both chunk rows of the chunked descendant `/a/b/c.txt`
orphaned in `file_chunks`. -/
theorem C2_delete_path_orphans_chunks :
    (delete_path dbDemo (pathOf ("/a"))).1 = true ∧
    (delete_path dbDemo (pathOf ("/a"))).2.files.map (fun r => r.path)
      = [pathOf ("/")] ∧
    (delete_path dbDemo (pathOf ("/a"))).2.chunks = dbDemo.chunks ∧
    dbDemo.chunks ≠ [] := by
  decide

/-- C7.  Renaming the directory `/a` (descendants `/a/b` and the chunked
file `/a/b/c.txt`) to `/z` leaves exactly `/`, `/z`, `/z/b` and
`/z/b/c.txt`, with every row keeping its id, no path starting with `/a`
remaining, and the chunk rows (ownership by id 4) untouched. -/
theorem C7_rename_tree :
    (rename_path dbDemo (pathOf ("/a")) (pathOf ("/z"))).1 = Except.ok true ∧
    (rename_path dbDemo (pathOf ("/a")) (pathOf ("/z"))).2.files.map
        (fun r => (r.id, r.path))
      = [(1, pathOf ("/")), (2, pathOf ("/z")), (3, pathOf ("/z/b")),
         (4, pathOf ("/z/b/c.txt"))] ∧
    ((rename_path dbDemo (pathOf ("/a")) (pathOf ("/z"))).2.files.all
        (fun r => !(pathOf ("/a")).isPrefixOf r.path)) = true ∧
    (rename_path dbDemo (pathOf ("/a")) (pathOf ("/z"))).2.chunks
      = dbDemo.chunks := by
  decide

/-- C8, counterexample.  Claimed: `rename_path(old, new)` validates the
last segment of `new` and fails (store unchanged) when the validator
rejects it.  In the code no validation happens inside `rename_path`:
renaming `/a` to `/a..b` — whose last segment `a..b` the validator
rejects — succeeds and rewrites the whole subtree. -/
theorem C8_counterexample_rename_no_validation :
    (validate_filename (pathOf ("a..b"))).1 = false ∧
    (rename_path dbDemo (pathOf ("/a")) (pathOf ("/a..b"))).1 = Except.ok true ∧
    (rename_path dbDemo (pathOf ("/a")) (pathOf ("/a..b"))).2.files.map
        (fun r => r.path)
      = [pathOf ("/"), pathOf ("/a..b"), pathOf ("/a..b/b"),
         pathOf ("/a..b/b/c.txt")] := by
  decide


/-- Soundness of acceptance: a filename the validator accepts is
non-empty, within the length bound, free of non-ASCII, control,
reserved and separator characters, has no leading/trailing space or
dot, and contains no `..`. -/
theorem validate_filename_accepts (f : Str)
    (h : (validate_filename f).1 = true) :
    f ≠ [] ∧ f.length ≤ 255 ∧
      (∀ c ∈ f, c.toNat ≤ 127 ∧ 32 ≤ c.toNat ∧ c.toNat ≠ 127 ∧
        c ∉ reservedChars ∧ c ≠ '/') ∧
      f.head? ≠ some ' ' ∧ f.getLast? ≠ some ' ' ∧
      f.head? ≠ some '.' ∧ f.getLast? ≠ some '.' ∧
      containsSub (pathOf ("..")) f = false := by
  unfold validate_filename at h
  repeat' split at h
  all_goals simp at h
  rename_i hne hlen x1 hascii x2 hctrl x3 hres hsp hdot hdd hslash
  have hascii' := List.find?_eq_none.mp hascii
  have hctrl' := List.find?_eq_none.mp hctrl
  have hres' := List.find?_eq_none.mp hres
  simp only [Bool.or_eq_true, decide_eq_true_eq, not_or] at hsp hdot
  refine ⟨hne, by omega, ?_, hsp.1, hsp.2, hdot.1, hdot.2, by simpa using hdd⟩
  intro c hc
  have h1 := hascii' c hc
  have h2 := hctrl' c hc
  simp only [decide_eq_true_eq, Bool.or_eq_true, not_or] at h1 h2
  refine ⟨by omega, by omega, h2.2, ?_, ?_⟩
  · intro hcres
    exact hres' c hcres (List.elem_eq_true_of_mem hc)
  · intro hceq
    subst hceq
    exact hslash (List.elem_eq_true_of_mem hc)

set_option maxRecDepth 40000 in
/-- C9.  `validate_filename` accepts a 255-character name, and rejects: a
256-character name, the empty string, any name with a character outside
printable ASCII or a control character, any name containing one of the
reserved characters, a leading/trailing space or dot, the substring
`..`, and the character `/`. -/
theorem C9_validate_filename_boundaries :
    (validate_filename (List.replicate 255 'a')).1 = true ∧
    (validate_filename (List.replicate 256 'a')).1 = false ∧
    (validate_filename []).1 = false ∧
    (∀ f c, c ∈ f → 127 < c.toNat → (validate_filename f).1 = false) ∧
    (∀ f c, c ∈ f → c.toNat < 32 ∨ c.toNat = 127 →
      (validate_filename f).1 = false) ∧
    (∀ f c, c ∈ f → c ∈ reservedChars → (validate_filename f).1 = false) ∧
    (∀ f, f.head? = some ' ' ∨ f.getLast? = some ' ' ∨
      f.head? = some '.' ∨ f.getLast? = some '.' →
      (validate_filename f).1 = false) ∧
    (∀ f, containsSub (pathOf ("..")) f = true →
      (validate_filename f).1 = false) ∧
    (∀ f, '/' ∈ f → (validate_filename f).1 = false) := by
  refine ⟨by decide, by decide, by decide, ?_, ?_, ?_, ?_, ?_, ?_⟩
  · intro f c hc hbig
    cases hv : (validate_filename f).1 with
    | false => rfl
    | true =>
      have hs := (validate_filename_accepts f hv).2.2.1 c hc
      omega
  · intro f c hc hctl
    cases hv : (validate_filename f).1 with
    | false => rfl
    | true =>
      have hs := (validate_filename_accepts f hv).2.2.1 c hc
      omega
  · intro f c hc hcres
    cases hv : (validate_filename f).1 with
    | false => rfl
    | true =>
      exact absurd hcres ((validate_filename_accepts f hv).2.2.1 c hc).2.2.2.1
  · intro f hedge
    cases hv : (validate_filename f).1 with
    | false => rfl
    | true =>
      have hs := validate_filename_accepts f hv
      rcases hedge with h | h | h | h
      · exact absurd h hs.2.2.2.1
      · exact absurd h hs.2.2.2.2.1
      · exact absurd h hs.2.2.2.2.2.1
      · exact absurd h hs.2.2.2.2.2.2.1
  · intro f hdd
    cases hv : (validate_filename f).1 with
    | false => rfl
    | true =>
      have hs := (validate_filename_accepts f hv).2.2.2.2.2.2.2
      rw [hs] at hdd
      exact absurd hdd (by decide)
  · intro f hc
    cases hv : (validate_filename f).1 with
    | false => rfl
    | true =>
      exact absurd rfl ((validate_filename_accepts f hv).2.2.1 '/' hc).2.2.2.2

set_option maxRecDepth 40000 in
/-- Witness for C9: the universally quantified rejection clauses applied
at concrete names (`é`, a control character, `a<b`, `.hidden`, `a..b`,
`a/b`), together with the two boundary-length facts. -/
theorem C9_witness :
    (validate_filename (List.replicate 255 'a')).1 = true ∧
    (validate_filename (List.replicate 256 'a')).1 = false ∧
    (validate_filename []).1 = false ∧
    (validate_filename (pathOf ("é"))).1 = false ∧
    (validate_filename [Char.ofNat 7]).1 = false ∧
    (validate_filename (pathOf ("a<b"))).1 = false ∧
    (validate_filename (pathOf (".hidden"))).1 = false ∧
    (validate_filename (pathOf ("a..b"))).1 = false ∧
    (validate_filename (pathOf ("a/b"))).1 = false := by
  refine ⟨C9_validate_filename_boundaries.1,
    C9_validate_filename_boundaries.2.1,
    C9_validate_filename_boundaries.2.2.1,
    C9_validate_filename_boundaries.2.2.2.1 _ 'é' (by decide) (by decide),
    C9_validate_filename_boundaries.2.2.2.2.1 _ (Char.ofNat 7) (by decide)
      (by decide),
    C9_validate_filename_boundaries.2.2.2.2.2.1 _ '<' (by decide) (by decide),
    C9_validate_filename_boundaries.2.2.2.2.2.2.1 _ (by decide),
    C9_validate_filename_boundaries.2.2.2.2.2.2.2.1 _ (by decide),
    C9_validate_filename_boundaries.2.2.2.2.2.2.2.2 _ (by decide)⟩

/-- Searching with `find?` skips a leading block on which the predicate is false. -/
theorem find?_append_of_false {α : Type} {p : α → Bool} {l1 l2 : List α}
    (h : ∀ x ∈ l1, p x = false) :
    List.find? p (l1 ++ l2) = List.find? p l2 := by
  induction l1 with
  | nil => rfl
  | cons a l ih =>
    have ha : p a = false := h a (List.mem_cons_self a l)
    simp only [List.cons_append, List.find?, ha]
    exact ih (fun x hx => h x (List.mem_cons_of_mem a hx))

/-- C4, counterexample.  Claimed: for every content `C` including the
empty byte string, the stored hash equals an independently computed
digest of `C`.  For `C = b''` the code stores `''` (the guard `if
content else ''`), which is not the digest of the empty byte string. -/
theorem C4_counterexample_empty_hash :
    (create_file initDB (pathOf ("/empty.txt")) []).1 = true ∧
    ((create_file initDB (pathOf ("/empty.txt")) []).2.files.find?
        (fun r => r.path = pathOf ("/empty.txt"))).map (fun r => r.hash)
      = some "" ∧
    "" ≠ sha256hex [] := by
  refine ⟨by decide, by decide, ?_⟩
  intro h
  exact sha256hex_ne_empty [] h.symm

/-- C4, amended.  Whenever the structural pre-checks of `create_file`
pass (parent exists, target absent), `create_file(P, C)` succeeds and a
subsequent `read_file(P)` returns exactly `C` with `size = len(C)`; the
stored hash is the digest of `C` when `C` is non-empty and the empty
string when `C` is empty. -/
theorem C4_create_read_roundtrip (db : DB) (path : Str) (content : Bytes)
    (hchk : createChecksOK db (normalizePath path)
      (fixParent (normalizePath path) (getParentPath (normalizePath path))) = true) :
    (create_file db path content).1 = true ∧
    ((read_file (create_file db path content).2 path).map (fun r => r.content)
        = some (some content) ∧
      (read_file (create_file db path content).2 path).map (fun r => r.size)
        = some content.length ∧
      (read_file (create_file db path content).2 path).map (fun r => r.hash)
        = some (if content ≠ [] then sha256hex content else "")) := by
  have hnew : pathExists db (normalizePath path) = false := by
    unfold createChecksOK at hchk
    rcases Bool.and_eq_true_iff.mp hchk with ⟨-, h2⟩
    simpa using h2
  have hskip : ∀ r ∈ db.files, r.path ≠ normalizePath path := by
    intro r hr hc
    have hex : pathExists db (normalizePath path) = true := by
      unfold pathExists
      exact List.any_eq_true.mpr ⟨r, hr, by simp [hc]⟩
    rw [hex] at hnew
    cases hnew
  have hfind :
      List.find? (fun r => decide (r.path = normalizePath path) && !r.is_directory)
        db.files = none :=
    List.find?_eq_none.mpr (fun x hx => by simp [hskip x hx])
  constructor
  · unfold create_file
    simp [hchk]
  · unfold create_file
    simp only [hchk, if_true]
    unfold read_file
    simp [hfind]

/-- Witness for C4 (amended): the round trip evaluated at `/w.txt` with
content `[5]` on the freshly initialised store. -/
theorem C4_witness :
    (create_file initDB (pathOf ("/w.txt")) [5]).1 = true ∧
    (read_file (create_file initDB (pathOf ("/w.txt")) [5]).2
        (pathOf ("/w.txt"))).map (fun r => r.content) = some (some [5]) ∧
    (read_file (create_file initDB (pathOf ("/w.txt")) [5]).2
        (pathOf ("/w.txt"))).map (fun r => r.hash)
      = some (if ([5] : Bytes) ≠ [] then sha256hex [5] else "") :=
  have h := C4_create_read_roundtrip initDB (pathOf ("/w.txt")) [5] (by decide)
  ⟨h.1, h.2.1, h.2.2.2⟩

/-- A stream whose reads are all non-empty and which then raises drives
the read loop into the exception path. -/
theorem runStream_raises (reads : List Bytes) (h : ∀ r ∈ reads, r ≠ [])
    (st : SLoop) : runStream st reads true = none := by
  induction reads generalizing st with
  | nil => rfl
  | cons c rest ih =>
    have hc : c ≠ [] := h c (List.mem_cons_self c rest)
    simp only [runStream, if_neg hc]
    exact ih (fun r hr => h r (List.mem_cons_of_mem c hr)) _

/-- C3.  If the source stream of `create_file_streaming` raises after
any number of non-empty reads, the transaction holding the placeholder
row and all chunk rows written so far is rolled back: afterwards the
store is exactly the pre-call store, so it holds no `virtual_files` row
for the path and no `file_chunks` row for the id the placeholder had
been allocated.  (The operation itself then escapes with a `NameError`
from the handler's unbound `eprint` — see C10 — but the claimed state
property holds.) -/
theorem C3_streaming_failure_cleanup (db : DB) (path : Str)
    (reads : List Bytes) (hreads : ∀ r ∈ reads, r ≠ [])
    (hchk : createChecksOK db (normalizePath path)
      (fixParent (normalizePath path) (getParentPath (normalizePath path))) = true)
    (hwf : WFchunks db) :
    create_file_streaming db path { reads := reads, raisesAfter := true }
      = (Except.error (PyExc.nameError "eprint"), db) ∧
    db.files.find? (fun r => r.path = normalizePath path) = none ∧
    db.chunks.filter (fun c => c.file_id = db.nextId) = [] := by
  refine ⟨?_, ?_, ?_⟩
  · unfold create_file_streaming
    rw [runStream_raises reads hreads initLoop]
    simp [hchk]
  · apply List.find?_eq_none.mpr
    intro r hr
    have hnew : pathExists db (normalizePath path) = false := by
      unfold createChecksOK at hchk
      rcases Bool.and_eq_true_iff.mp hchk with ⟨-, h2⟩
      simpa using h2
    intro hc
    have hex : pathExists db (normalizePath path) = true := by
      unfold pathExists
      exact List.any_eq_true.mpr ⟨r, hr, by simpa using hc⟩
    rw [hex] at hnew
    cases hnew
  · apply List.filter_eq_nil_iff.mpr
    intro c hc
    have := hwf c hc
    simp
    omega

/-- C10.  Claimed: every public VFS operation catches internal errors
and returns its failure default instead of propagating an exception.
Refuted on the embedded `create_file_streaming`: when its source stream
raises, the `except` handler itself evaluates the unbound name `eprint`
(the repository never calls `setup_print_interceptor`, the only place
that would define it), so a `NameError` escapes to the caller instead of
the documented `False`. -/
theorem C10_internal_error_propagates :
    (create_file_streaming initDB (pathOf ("/f.bin"))
        { reads := [[1]], raisesAfter := true }).1
      = Except.error (PyExc.nameError "eprint") ∧
    ∀ b : Bool,
      (create_file_streaming initDB (pathOf ("/f.bin"))
          { reads := [[1]], raisesAfter := true }).1 ≠ Except.ok b := by
  refine ⟨by decide, ?_⟩
  intro b
  cases b
  · decide
  · decide

/-- Witness for C3: the cleanup theorem evaluated on the fresh store
with a stream that yields `[1]`, `[2]` and then raises. -/
theorem C3_witness :
    create_file_streaming initDB (pathOf ("/up.bin"))
        { reads := [[1], [2]], raisesAfter := true }
      = (Except.error (PyExc.nameError "eprint"), initDB) ∧
    initDB.files.find? (fun r => r.path = normalizePath (pathOf ("/up.bin")))
      = none ∧
    initDB.chunks.filter (fun c => c.file_id = initDB.nextId) = [] :=
  C3_streaming_failure_cleanup initDB (pathOf ("/up.bin")) [[1], [2]]
    (by decide) (by decide) (by intro c hc; simp [initDB] at hc)

/-- C8, amended.  Filename validation for renames lives in the HTTP
route, not in `rename_path`: for every new path whose last segment the
validator rejects, the route `rename_virtual_item` answers 400 without
invoking `rename_path`, leaving the store unchanged (while `rename_path`
itself performs no validation — see the counterexample). -/
theorem C8_route_validates_rename (db : DB) (o n : Str)
    (hno : o ≠ []) (hnn : n ≠ [])
    (hval : (validate_filename
      ((splitOnSlash (if n.head? = some '/' then n else '/' :: n)).getLastD
        [])).1 = false) :
    rename_route db (some o) (some n) = (400, db) := by
  unfold rename_route
  rw [List.getLastD_eq_getLast?] at hval
  simp [hno, hnn, hval]

/-- Witness for C8 (amended): renaming `/a` to `/a..b` through the route
is rejected with 400 and the demonstration store is unchanged. -/
theorem C8_witness :
    rename_route dbDemo (some (pathOf ("/a"))) (some (pathOf ("/a..b")))
      = (400, dbDemo) :=
  C8_route_validates_rename dbDemo (pathOf ("/a")) (pathOf ("/a..b"))
    (by decide) (by decide) (by decide)

/-- Concatenating the slices produced by `chunksOfAux` restores the
input, for any sufficient fuel. -/
theorem joinBytes_chunksOfAux (n : Nat) :
    ∀ (fuel : Nat) (xs : Bytes), xs.length ≤ fuel →
      joinBytes (chunksOfAux n fuel xs) = xs := by
  intro fuel
  induction fuel with
  | zero =>
    intro xs hxs
    have : xs = [] := List.eq_nil_of_length_eq_zero (Nat.le_zero.mp hxs)
    subst this
    rfl
  | succ fuel ih =>
    intro xs hxs
    cases xs with
    | nil => rfl
    | cons x rest =>
      simp only [chunksOfAux, joinBytes, List.flatten_cons]
      have hlen : ((x :: rest).drop (max n 1)).length ≤ fuel := by
        simp only [List.length_drop, List.length_cons]
        have : 1 ≤ max n 1 := Nat.le_max_right n 1
        simp only [List.length_cons] at hxs
        omega
      have := ih ((x :: rest).drop (max n 1)) hlen
      unfold joinBytes at this
      rw [this, List.take_append_drop]

/-- Concatenating the slices produced by `chunksOf` restores the input. -/
theorem joinBytes_chunksOf (n : Nat) (xs : Bytes) :
    joinBytes (chunksOf n xs) = xs :=
  joinBytes_chunksOfAux n xs.length xs (Nat.le_refl _)

/-- The slicer `chunksOfAux` never produces an empty slice. -/
theorem chunksOfAux_ne_nil (n : Nat) :
    ∀ (fuel : Nat) (xs : Bytes), ∀ r ∈ chunksOfAux n fuel xs, r ≠ [] := by
  intro fuel
  induction fuel with
  | zero => intro xs r hr; cases hr
  | succ fuel ih =>
    intro xs r hr
    cases xs with
    | nil => cases hr
    | cons x rest =>
      simp only [chunksOfAux] at hr
      rcases List.mem_cons.mp hr with h | h
      · subst h
        simp [List.take_eq_nil_iff]
      · exact ih _ r h

/-- The slicer `chunksOf` never produces an empty slice. -/
theorem chunksOf_ne_nil (n : Nat) (xs : Bytes) :
    ∀ r ∈ chunksOf n xs, r ≠ [] :=
  chunksOfAux_ne_nil n xs.length xs

/-- Draining full chunks from a buffer loses no bytes. -/
theorem drainFullAux_join (n : Nat) :
    ∀ (fuel : Nat) (buf : Bytes), buf.length ≤ fuel →
      joinBytes (drainFullAux n fuel buf).1 ++ (drainFullAux n fuel buf).2
        = buf := by
  intro fuel
  induction fuel with
  | zero => intro buf _; simp [drainFullAux, joinBytes]
  | succ fuel ih =>
    intro buf hbuf
    by_cases hcond : 1 ≤ n ∧ n ≤ buf.length
    · simp only [drainFullAux, if_pos hcond, joinBytes, List.flatten_cons]
      have hlen : (buf.drop n).length ≤ fuel := by
        simp only [List.length_drop]
        omega
      have := ih (buf.drop n) hlen
      unfold joinBytes at this
      rw [List.append_assoc, this, List.take_append_drop]
    · simp [drainFullAux, if_neg hcond, joinBytes]

/-- Draining full chunks from a buffer loses no bytes. -/
theorem drainFull_join (n : Nat) (buf : Bytes) :
    joinBytes (drainFull n buf).1 ++ (drainFull n buf).2 = buf :=
  drainFullAux_join n buf.length buf (Nat.le_refl _)

/-- One loop iteration always appends the read chunk to the fed bytes
and adds its length to the byte counter. -/
theorem stepChunk_fed (st : SLoop) (c : Bytes) :
    (stepChunk st c).fed = st.fed ++ c ∧
      (stepChunk st c).total = st.total + c.length := by
  unfold stepChunk
  dsimp only
  split
  · exact ⟨rfl, rfl⟩
  · split
    · exact ⟨rfl, rfl⟩
    · exact ⟨rfl, rfl⟩

/-- One loop iteration preserves the loop invariant. -/
theorem stepChunk_inv (st : SLoop) (c : Bytes) (hinv : LoopInv st) :
    LoopInv (stepChunk st c) := by
  obtain ⟨h1, h2, h3, h4⟩ := hinv
  unfold stepChunk LoopInv
  dsimp only
  split
  · rename_i hA
    obtain ⟨hge, hsbne⟩ := hA
    refine ⟨?_, ?_, ?_, ?_⟩
    · dsimp only
      have hjoin := joinBytes_chunksOf chunkStorageSize
        (joinBytes st.smallBuf ++ st.curBuf ++ c)
      simp only [joinBytes, List.flatten_append, List.flatten_nil,
        List.append_nil, List.nil_append] at hjoin h1 ⊢
      rw [hjoin, h1]
      simp [List.append_assoc]
    · dsimp only
      simp [h2]
    · dsimp only
      intro hlt
      exact absurd hlt (by omega)
    · intro _
      rfl
  · split
    · rename_i hA hB
      have hsmall : st.total < smallFileThreshold := by omega
      obtain ⟨hst, hcb⟩ := h3 hsmall
      refine ⟨?_, ?_, ?_, ?_⟩
      · dsimp only
        simp only [hst, hcb, joinBytes, List.flatten_append, List.flatten_cons,
          List.flatten_nil, List.append_nil, List.nil_append] at h1 ⊢
        rw [h1]
      · dsimp only
        simp [h2]
      · intro _
        exact ⟨hst, hcb⟩
      · dsimp only
        intro hge2
        exact absurd hge2 (by omega)
    · rename_i hA hB
      have hge : smallFileThreshold ≤ st.total + c.length := by omega
      have hsb : st.smallBuf = [] := by
        by_cases hempty : st.smallBuf = []
        · exact hempty
        · exact absurd ⟨by omega, hempty⟩ hA
      refine ⟨?_, ?_, ?_, ?_⟩
      · dsimp only
        have hdrain := drainFull_join chunkStorageSize (st.curBuf ++ c)
        simp only [joinBytes] at hdrain
        simp only [hsb, joinBytes, List.flatten_append, List.flatten_nil,
          List.append_nil, List.nil_append] at h1 ⊢
        rw [List.append_assoc, hdrain, h1, List.append_assoc]
      · dsimp only
        simp [h2]
      · dsimp only
        intro hlt
        exact absurd hlt (by omega)
      · intro _
        exact hsb

/-- When no read is empty and the stream does not raise, the read loop
is exactly a left fold of `stepChunk` over the reads. -/
theorem runStream_eq_foldl (reads : List Bytes) (h : ∀ r ∈ reads, r ≠ [])
    (st : SLoop) : runStream st reads false = some (reads.foldl stepChunk st) := by
  induction reads generalizing st with
  | nil => rfl
  | cons c rest ih =>
    have hc : c ≠ [] := h c (List.mem_cons_self c rest)
    simp only [runStream, if_neg hc, List.foldl_cons]
    exact ih (fun r hr => h r (List.mem_cons_of_mem c hr)) _

/-- The read-loop fold preserves the loop invariant. -/
theorem foldl_stepChunk_inv (reads : List Bytes) (st : SLoop)
    (h : LoopInv st) : LoopInv (reads.foldl stepChunk st) := by
  induction reads generalizing st with
  | nil => exact h
  | cons c rest ih => exact ih _ (stepChunk_inv st c h)

/-- The read-loop fold feeds exactly the concatenation of the reads to
the running hash. -/
theorem foldl_stepChunk_fed (reads : List Bytes) (st : SLoop) :
    (reads.foldl stepChunk st).fed = st.fed ++ joinBytes reads := by
  induction reads generalizing st with
  | nil => simp [joinBytes]
  | cons c rest ih =>
    simp only [List.foldl_cons, joinBytes, List.flatten_cons]
    rw [ih (stepChunk st c), (stepChunk_fed st c).1]
    simp [joinBytes, List.append_assoc]

/-- The initial loop state satisfies the invariant. -/
theorem initLoop_inv : LoopInv initLoop := by
  refine ⟨rfl, rfl, fun _ => ⟨rfl, rfl⟩, fun _ => rfl⟩

/-- The chunk rows built from an enumeration are sorted by
`chunk_index`. -/
theorem sorted_enumFrom_chunkRows (fid : Nat) (l : List Bytes) :
    ∀ k, List.Sorted (fun a b : ChunkRow => a.chunk_index ≤ b.chunk_index)
      ((l.enumFrom k).map (fun p =>
        ({ file_id := fid, chunk_index := p.1, chunk_data := p.2
           chunk_size := p.2.length } : ChunkRow))) := by
  induction l with
  | nil => intro k; simp [List.Sorted]
  | cons x rest ih =>
    intro k
    simp only [List.enumFrom, List.map_cons]
    refine List.sorted_cons.mpr ⟨?_, ih (k + 1)⟩
    intro b hb
    rcases List.mem_map.mp hb with ⟨p, hp, hpb⟩
    have := List.le_fst_of_mem_enumFrom hp
    rw [← hpb]
    dsimp only
    omega

/-- Reading the chunk table for a fresh file id after appending that
file's rows returns exactly the stored chunk list, in order. -/
theorem chunkDataFor_append (F : List FileRow) (old : List ChunkRow)
    (n' fid : Nat) (hold : ∀ ch ∈ old, ch.file_id ≠ fid)
    (stored : List Bytes) :
    chunkDataFor
      { files := F
        chunks := old ++ stored.enum.map (fun p =>
          { file_id := fid, chunk_index := p.1, chunk_data := p.2
            chunk_size := p.2.length })
        nextId := n' } fid = stored := by
  unfold chunkDataFor
  dsimp only
  rw [List.filter_append]
  have hf1 : old.filter (fun ch => decide (ch.file_id = fid)) = [] :=
    List.filter_eq_nil_iff.mpr (fun ch hch => by simp [hold ch hch])
  have hf2 : (stored.enum.map (fun p =>
      ({ file_id := fid, chunk_index := p.1, chunk_data := p.2
         chunk_size := p.2.length } : ChunkRow))).filter
        (fun ch => decide (ch.file_id = fid))
      = stored.enum.map (fun p =>
          { file_id := fid, chunk_index := p.1, chunk_data := p.2
            chunk_size := p.2.length }) := by
    apply List.filter_eq_self.mpr
    intro ch hch
    rcases List.mem_map.mp hch with ⟨p, _, hpb⟩
    rw [← hpb]
    simp
  rw [hf1, hf2, List.nil_append]
  have hs : List.Sorted (fun a b : ChunkRow => a.chunk_index ≤ b.chunk_index)
      (stored.enum.map (fun p =>
        { file_id := fid, chunk_index := p.1, chunk_data := p.2
          chunk_size := p.2.length })) :=
    sorted_enumFrom_chunkRows fid stored 0
  rw [List.Sorted.insertionSort_eq hs]
  rw [List.map_map]
  have : ((fun ch : ChunkRow => ch.chunk_data) ∘ (fun p : Nat × Bytes =>
      ({ file_id := fid, chunk_index := p.1, chunk_data := p.2
         chunk_size := p.2.length } : ChunkRow))) = Prod.snd := by
    funext p
    rfl
  rw [this, List.enum_map_snd]

/-- Reading the chunk table for a file id whose rows were appended after
rows it does not own returns exactly the stored chunk list, in order. -/
theorem chunkDataFor_eq (db' : DB) (fid : Nat) (old : List ChunkRow)
    (stored : List Bytes) (hch : db'.chunks = old ++ chunkRowsFor fid stored)
    (hold : ∀ ch ∈ old, ch.file_id ≠ fid) :
    chunkDataFor db' fid = stored := by
  have h := chunkDataFor_append db'.files old db'.nextId fid hold stored
  unfold chunkRowsFor at hch
  unfold chunkDataFor at h ⊢
  dsimp only at h
  rw [hch]
  exact h

/-- C5.  Streaming any content `c` through `create_file_streaming` in
read chunks of any size `K ≥ 1` succeeds, and reading it back through
`read_file` or `read_file_streaming` yields exactly `c` with the hash of
`c` and size `len(c)` — independently of `K`, and uniformly below, at
and above the 1 MiB chunking threshold (the proof splits only on the
threshold comparison, with no constraint on `c.length`). -/
theorem C5_streaming_roundtrip (db : DB) (path : Str) (c : Bytes) (K : Nat)
    (_hK : 1 ≤ K)
    (hchk : createChecksOK db (normalizePath path)
      (fixParent (normalizePath path) (getParentPath (normalizePath path))) = true)
    (hwf : WFchunks db) :
    (create_file_streaming db path
        { reads := chunksOf K c, raisesAfter := false }).1 = Except.ok true ∧
    (read_file (create_file_streaming db path
          { reads := chunksOf K c, raisesAfter := false }).2 path).map
        (fun r => (r.content, r.hash, r.size))
      = some (some c, sha256hex c, c.length) ∧
    (read_file_streaming (create_file_streaming db path
          { reads := chunksOf K c, raisesAfter := false }).2 path).map
        (fun p => (joinBytes p.2, p.1.hash, p.1.size))
      = some (c, sha256hex c, c.length) := by
  have hne := chunksOf_ne_nil K c
  have hrun := runStream_eq_foldl (chunksOf K c) hne initLoop
  set st := (chunksOf K c).foldl stepChunk initLoop with hst
  have hinvAll := foldl_stepChunk_inv (chunksOf K c) initLoop initLoop_inv
  rw [← hst] at hinvAll
  obtain ⟨hi1, hi2, hi3, hi4⟩ := hinvAll
  have hfed : st.fed = c := by
    rw [hst, foldl_stepChunk_fed]
    simp [initLoop, joinBytes_chunksOf]
  have htotal : st.total = c.length := by rw [hi2, hfed]
  have hnew : pathExists db (normalizePath path) = false := by
    unfold createChecksOK at hchk
    rcases Bool.and_eq_true_iff.mp hchk with ⟨-, h2⟩
    simpa using h2
  have hskip : ∀ r ∈ db.files, r.path ≠ normalizePath path := by
    intro r hr hc2
    have hex : pathExists db (normalizePath path) = true := by
      unfold pathExists
      exact List.any_eq_true.mpr ⟨r, hr, by simp [hc2]⟩
    rw [hex] at hnew
    cases hnew
  by_cases hbig : smallFileThreshold ≤ st.total
  · -- chunked storage
    have hsb : st.smallBuf = [] := hi4 hbig
    have hstored : joinBytes (st.stored ++
        if st.curBuf ≠ [] then [st.curBuf] else []) = c := by
      rw [← hfed, hi1, hsb]
      by_cases hcb : st.curBuf = []
      · simp [hcb, joinBytes]
      · simp [hcb, joinBytes]
    have hstored2 : joinBytes (st.stored ++
        if st.curBuf = [] then [] else [st.curBuf]) = c := by
      by_cases hcb : st.curBuf = []
      · simpa [hcb] using hstored
      · simpa [hcb] using hstored
    have hcreate : create_file_streaming db path
        { reads := chunksOf K c, raisesAfter := false }
        = (Except.ok true,
          { files := db.files ++ [streamedChunkedRow db path st]
            chunks := db.chunks ++ chunkRowsFor db.nextId
              (st.stored ++ if st.curBuf ≠ [] then [st.curBuf] else [])
            nextId := db.nextId + 1 }) := by
      unfold create_file_streaming
      dsimp only
      rw [hrun]
      simp only [hchk, Bool.not_true]
      rw [if_neg Bool.false_ne_true]
      rw [if_pos hbig]
      rfl
    have hrowfind : List.find?
        (fun r => decide (r.path = normalizePath path) &&
          decide (r.is_directory = false))
        (db.files ++ [streamedChunkedRow db path st])
        = some (streamedChunkedRow db path st) := by
      rw [find?_append_of_false (fun x hx => by simp [hskip x hx])]
      simp [streamedChunkedRow]
    have hcd : chunkDataFor
        { files := db.files ++ [streamedChunkedRow db path st]
          chunks := db.chunks ++ chunkRowsFor db.nextId
            (st.stored ++ if st.curBuf ≠ [] then [st.curBuf] else [])
          nextId := db.nextId + 1 } (streamedChunkedRow db path st).id
        = st.stored ++ if st.curBuf ≠ [] then [st.curBuf] else [] := by
      exact chunkDataFor_eq _ _ db.chunks _ rfl
        (fun ch hch => Nat.ne_of_lt (hwf ch hch))
    rw [hcreate]
    refine ⟨rfl, ?_, ?_⟩
    · unfold read_file
      dsimp only
      rw [hrowfind]
      dsimp only
      rw [if_pos (show (streamedChunkedRow db path st).is_chunked = some true
        by simp [streamedChunkedRow])]
      rw [hcd, hstored]
      simp [streamedChunkedRow, hfed, htotal]
    · unfold read_file_streaming
      dsimp only
      rw [hrowfind]
      dsimp only
      rw [if_pos (show (streamedChunkedRow db path st).is_chunked = some true
        by simp [streamedChunkedRow])]
      rw [hcd]
      simp [streamedChunkedRow, hstored, hstored2, hfed, htotal]
  · -- traditional storage
    have hlt : st.total < smallFileThreshold := by omega
    obtain ⟨hstored0, hcb0⟩ := hi3 hlt
    have hcontent : joinBytes st.smallBuf = c := by
      rw [← hfed, hi1, hstored0, hcb0]
      simp [joinBytes]
    have hcreate : create_file_streaming db path
        { reads := chunksOf K c, raisesAfter := false }
        = (Except.ok true,
          { files := db.files ++ [streamedSmallRow db path st]
            chunks := db.chunks
            nextId := db.nextId + 1 }) := by
      unfold create_file_streaming
      dsimp only
      rw [hrun]
      simp only [hchk, Bool.not_true]
      rw [if_neg Bool.false_ne_true]
      rw [if_neg hbig]
      rfl
    have hrowfind : List.find?
        (fun r => decide (r.path = normalizePath path) &&
          decide (r.is_directory = false))
        (db.files ++ [streamedSmallRow db path st])
        = some (streamedSmallRow db path st) := by
      rw [find?_append_of_false (fun x hx => by simp [hskip x hx])]
      simp [streamedSmallRow]
    rw [hcreate]
    refine ⟨rfl, ?_, ?_⟩
    · unfold read_file
      dsimp only
      rw [hrowfind]
      simp only [streamedSmallRow]
      simp [hcontent, hfed, htotal]
    · unfold read_file_streaming
      dsimp only
      rw [hrowfind]
      simp only [streamedSmallRow]
      rw [hcontent, hfed, htotal]
      by_cases hc0 : c = []
      · simp [hc0, joinBytes]
      · simp [hc0, joinBytes_chunksOf]

/-- Witness for C5: content `[1, 2, 3, 4]` streamed in reads of size 3
into the fresh store (small-file side of the threshold; the theorem
itself covers both sides uniformly). -/
theorem C5_witness :
    (create_file_streaming initDB (pathOf ("/s.bin"))
        { reads := chunksOf 3 [1, 2, 3, 4], raisesAfter := false }).1
      = Except.ok true ∧
    (read_file (create_file_streaming initDB (pathOf ("/s.bin"))
          { reads := chunksOf 3 [1, 2, 3, 4], raisesAfter := false }).2
        (pathOf ("/s.bin"))).map (fun r => (r.content, r.hash, r.size))
      = some (some [1, 2, 3, 4], sha256hex [1, 2, 3, 4], 4) ∧
    (read_file_streaming (create_file_streaming initDB (pathOf ("/s.bin"))
          { reads := chunksOf 3 [1, 2, 3, 4], raisesAfter := false }).2
        (pathOf ("/s.bin"))).map (fun p => (joinBytes p.2, p.1.hash, p.1.size))
      = some ([1, 2, 3, 4], sha256hex [1, 2, 3, 4], 4) :=
  C5_streaming_roundtrip initDB (pathOf ("/s.bin")) [1, 2, 3, 4] 3
    (by decide) (by decide) (by intro ch hch; simp [initDB] at hch)

/-- Both the current piece and the finished pieces produced by
`splitAux` are free of separators. -/
theorem splitAux_slashFree (s : Str) :
    (∀ ch ∈ (splitAux s).1, ch ≠ '/') ∧
    (∀ piece ∈ (splitAux s).2, ∀ ch ∈ piece, ch ≠ '/') := by
  induction s with
  | nil => exact ⟨by simp [splitAux], by simp [splitAux]⟩
  | cons c rest ih =>
    by_cases hc : c = '/'
    · refine ⟨by simp [splitAux, hc], ?_⟩
      intro piece hp
      simp only [splitAux, hc, if_pos rfl] at hp
      rcases List.mem_cons.mp hp with h | h
      · subst h
        exact ih.1
      · exact ih.2 piece h
    · refine ⟨?_, ?_⟩
      · intro ch hch
        simp only [splitAux, if_neg hc] at hch
        rcases List.mem_cons.mp hch with h | h
        · subst h
          exact hc
        · exact ih.1 ch h
      · intro piece hp
        simp only [splitAux, if_neg hc] at hp
        exact ih.2 piece hp

/-- A separator-free string trivially has no adjacent separators. -/
theorem noAdjSlash_of_slashFree (l : Str) (h : ∀ ch ∈ l, ch ≠ '/') :
    noAdjSlash l = true := by
  induction l with
  | nil => rfl
  | cons a rest ih =>
    cases rest with
    | nil => rfl
    | cons b rest2 =>
      have ha : a ≠ '/' := h a (List.mem_cons_self a _)
      simp only [noAdjSlash]
      refine Bool.and_eq_true_iff.mpr ⟨by simp [ha], ?_⟩
      exact ih (fun ch hch => h ch (List.mem_cons_of_mem a hch))

/-- Appending two strings without adjacent separators keeps them free of
adjacent separators as long as the junction does not create one. -/
theorem noAdjSlash_append (a b : Str) (ha : noAdjSlash a = true)
    (hb : noAdjSlash b = true)
    (hj : ¬(a.getLast? = some '/' ∧ b.head? = some '/')) :
    noAdjSlash (a ++ b) = true := by
  induction a with
  | nil => simpa using hb
  | cons x xs ih =>
    cases xs with
    | nil =>
      cases b with
      | nil => simpa using ha
      | cons y ys =>
        simp only [List.cons_append, List.nil_append, noAdjSlash]
        refine Bool.and_eq_true_iff.mpr ⟨?_, hb⟩
        simp only [List.getLast?_singleton, List.head?_cons] at hj
        simp only [Bool.not_eq_true', Bool.and_eq_false_iff]
        by_cases hx : x = '/'
        · right
          simp only [decide_eq_false_iff_not]
          intro hy
          exact hj ⟨by simp [hx], by simp [hy]⟩
        · left
          simp [hx]
    | cons x2 xs2 =>
      simp only [List.cons_append, noAdjSlash] at ha ⊢
      obtain ⟨h1, h2⟩ := Bool.and_eq_true_iff.mp ha
      refine Bool.and_eq_true_iff.mpr ⟨h1, ?_⟩
      refine ih h2 ?_
      intro hcontra
      exact hj ⟨by rw [List.getLast?_cons_cons]; exact hcontra.1, hcontra.2⟩

/-- Dropping a prefix preserves the absence of adjacent separators. -/
theorem noAdjSlash_drop (n : Nat) (l : Str) (h : noAdjSlash l = true) :
    noAdjSlash (l.drop n) = true := by
  induction n generalizing l with
  | zero => simpa using h
  | succ n ih =>
    cases l with
    | nil => rfl
    | cons x xs =>
      simp only [List.drop_succ_cons]
      apply ih
      cases xs with
      | nil => rfl
      | cons y ys => exact (Bool.and_eq_true_iff.mp h).2

/-- A non-empty suffix has the same last element as the whole string. -/
theorem getLast?_drop_eq (l : Str) (n : Nat) (h : l.drop n ≠ []) :
    (l.drop n).getLast? = l.getLast? := by
  conv_rhs => rw [← List.take_append_drop n l]
  exact (List.getLast?_append_of_ne_nil _ h).symm

/-- Joining non-empty separator-free pieces with `/` yields a string
that is non-empty (for non-empty input), does not start or end with a
separator, and has no adjacent separators. -/
theorem joinSlash_props (parts : List Str)
    (hne : ∀ x ∈ parts, x ≠ [])
    (hsf : ∀ x ∈ parts, ∀ ch ∈ x, ch ≠ '/') :
    (parts ≠ [] → joinSlash parts ≠ []) ∧
    (joinSlash parts).head? ≠ some '/' ∧
    (joinSlash parts).getLast? ≠ some '/' ∧
    noAdjSlash (joinSlash parts) = true := by
  induction parts with
  | nil =>
    exact ⟨fun h => absurd rfl h, by simp [joinSlash], by simp [joinSlash], rfl⟩
  | cons x parts ih =>
    cases parts with
    | nil =>
      have hx : x ≠ [] := hne x (List.mem_cons_self x _)
      have hxf : ∀ ch ∈ x, ch ≠ '/' := hsf x (List.mem_cons_self x _)
      refine ⟨fun _ => by simpa [joinSlash] using hx, ?_, ?_, ?_⟩
      · cases x with
        | nil => simp [joinSlash]
        | cons c cs =>
          have := hxf c (List.mem_cons_self c cs)
          simp [joinSlash, this]
      · show x.getLast? ≠ some '/'
        cases hxl : x.getLast? with
        | none => simp
        | some c =>
          have hcm : c ∈ x := List.mem_of_mem_getLast? hxl
          simpa using fun hctr => hxf c hcm (by simpa using hctr)
      · exact noAdjSlash_of_slashFree x hxf
    | cons y parts2 =>
      have hx : x ≠ [] := hne x (List.mem_cons_self x _)
      have hxf : ∀ ch ∈ x, ch ≠ '/' := hsf x (List.mem_cons_self x _)
      have hne2 : ∀ z ∈ y :: parts2, z ≠ [] :=
        fun z hz => hne z (List.mem_cons_of_mem x hz)
      have hsf2 : ∀ z ∈ y :: parts2, ∀ ch ∈ z, ch ≠ '/' :=
        fun z hz => hsf z (List.mem_cons_of_mem x hz)
      obtain ⟨ihne, ihh, ihl, ihadj⟩ := ih hne2 hsf2
      have hJne : joinSlash (y :: parts2) ≠ [] := ihne (List.cons_ne_nil y parts2)
      have hjoin : joinSlash (x :: y :: parts2)
          = x ++ '/' :: joinSlash (y :: parts2) := rfl
      refine ⟨fun _ => ?_, ?_, ?_, ?_⟩
      · rw [hjoin]
        intro hcon
        rcases List.append_eq_nil.mp hcon with ⟨-, h2⟩
        cases h2
      · rw [hjoin, List.head?_append_of_ne_nil _ hx]
        cases x with
        | nil => exact absurd rfl hx
        | cons c cs =>
          have := hxf c (List.mem_cons_self c cs)
          simp [this]
      · rw [hjoin, List.getLast?_append_of_ne_nil _ (List.cons_ne_nil _ _)]
        cases hJ : joinSlash (y :: parts2) with
        | nil => exact absurd hJ hJne
        | cons j js =>
          rw [List.getLast?_cons_cons]
          rw [hJ] at ihl
          exact ihl
      · rw [hjoin]
        apply noAdjSlash_append x ('/' :: joinSlash (y :: parts2))
          (noAdjSlash_of_slashFree x hxf)
        · cases hJ : joinSlash (y :: parts2) with
          | nil => exact absurd hJ hJne
          | cons j js =>
            simp only [noAdjSlash]
            refine Bool.and_eq_true_iff.mpr ⟨?_, by rw [hJ] at ihadj; exact ihadj⟩
            have : j ≠ '/' := by
              rw [hJ] at ihh
              simpa using ihh
            simp [this]
        · intro hcontra
          rcases hcontra with ⟨hl, -⟩
          cases hxl : x.getLast? with
          | none => rw [hxl] at hl; cases hl
          | some c =>
            rw [hxl] at hl
            have hcm : c ∈ x := List.mem_of_mem_getLast? hxl
            exact hxf c hcm (by simpa using hl)

/-- A canonical path other than the root starts with `/`, does not end
with `/`, and has no empty segment. -/
theorem canonicalPath_parts (p : Str) (h : canonicalPath p = true)
    (hnr : p ≠ pathOf ("/")) :
    p.head? = some '/' ∧ p.getLast? ≠ some '/' ∧ noAdjSlash p = true := by
  unfold canonicalPath at h
  rcases Bool.or_eq_true_iff.mp h with h | h
  · exact absurd (by simpa using h) hnr
  · rcases Bool.and_eq_true_iff.mp h with ⟨h12, h3⟩
    rcases Bool.and_eq_true_iff.mp h12 with ⟨h1, h2⟩
    exact ⟨by simpa using h1, by simpa using h2, h3⟩

/-- A canonical path is non-empty and starts with `/`. -/
theorem canonicalPath_head (p : Str) (h : canonicalPath p = true) :
    p ≠ [] ∧ p.head? = some '/' := by
  by_cases hnr : p = pathOf ("/")
  · subst hnr
    exact ⟨by decide, by decide⟩
  · have hh := (canonicalPath_parts p h hnr).1
    refine ⟨?_, hh⟩
    intro hcon
    rw [hcon] at hh
    cases hh

/-- Normalising a path whose input starts with `/` yields a canonical
path. -/
theorem canonicalPath_normalize (p : Str) (habs : p.head? = some '/') :
    canonicalPath (normalizePath p) = true := by
  unfold normalizePath
  by_cases hp : p = pathOf ("/")
  · rw [if_pos hp]
    decide
  · rw [if_neg hp, if_pos habs]
    have hne : ∀ x ∈ (splitOnSlash p).filter (fun part => part ≠ []), x ≠ [] := by
      intro x hx
      have := (List.mem_filter.mp hx).2
      simpa using this
    have hsf : ∀ x ∈ (splitOnSlash p).filter (fun part => part ≠ []),
        ∀ ch ∈ x, ch ≠ '/' := by
      intro x hx
      have hx2 := (List.mem_filter.mp hx).1
      unfold splitOnSlash at hx2
      rcases List.mem_cons.mp hx2 with h | h
      · subst h
        exact (splitAux_slashFree p).1
      · exact (splitAux_slashFree p).2 x h
    obtain ⟨hjne, hjh, hjl, hjadj⟩ := joinSlash_props _ hne hsf
    cases hpe : (splitOnSlash p).filter (fun part => part ≠ []) with
    | nil => decide
    | cons q qs =>
      rw [hpe] at hjne hjh hjl hjadj
      have hJne : joinSlash (q :: qs) ≠ [] := hjne (List.cons_ne_nil q qs)
      unfold canonicalPath
      refine Bool.or_eq_true_iff.mpr (Or.inr ?_)
      refine Bool.and_eq_true_iff.mpr ⟨Bool.and_eq_true_iff.mpr ⟨by simp, ?_⟩, ?_⟩
      · cases hJ : joinSlash (q :: qs) with
        | nil => exact absurd hJ hJne
        | cons j js =>
          rw [hJ] at hjl
          simp only [List.getLast?_cons_cons]
          simpa using hjl
      · cases hJ : joinSlash (q :: qs) with
        | nil => exact absurd hJ hJne
        | cons j js =>
          rw [hJ] at hjh hjadj
          simp only [noAdjSlash]
          refine Bool.and_eq_true_iff.mpr ⟨?_, hjadj⟩
          have : j ≠ '/' := by simpa using hjh
          simp [this]

/-- Replacing a canonical non-root prefix of a canonical path by a
canonical non-root string yields a canonical path (the prefix-rewrite
step of a directory rename). -/
theorem canonicalPath_concat (newN child : Str) (k : Nat)
    (hnew : canonicalPath newN = true) (hnr : newN ≠ pathOf ("/"))
    (hchild : canonicalPath child = true) (hk : 1 ≤ k) :
    canonicalPath (newN ++ child.drop k) = true := by
  by_cases hrel : child.drop k = []
  · simpa [hrel] using hnew
  · have hlen : k < child.length := by
      by_contra hle
      push_neg at hle
      exact hrel (List.drop_eq_nil_of_le hle)
    have hchildnr : child ≠ pathOf ("/") := by
      intro hcr
      rw [hcr] at hlen
      simp [pathOf] at hlen
      omega
    obtain ⟨hch, hcl, hcadj⟩ := canonicalPath_parts child hchild hchildnr
    obtain ⟨hnh, hnl, hnadj⟩ := canonicalPath_parts newN hnew hnr
    have hnne : newN ≠ [] := (canonicalPath_head newN hnew).1
    unfold canonicalPath
    refine Bool.or_eq_true_iff.mpr (Or.inr ?_)
    refine Bool.and_eq_true_iff.mpr ⟨Bool.and_eq_true_iff.mpr ⟨?_, ?_⟩, ?_⟩
    · rw [List.head?_append_of_ne_nil _ hnne]
      simpa using hnh
    · rw [List.getLast?_append_of_ne_nil _ hrel]
      rw [getLast?_drop_eq child k hrel]
      simpa using hcl
    · refine noAdjSlash_append _ _ hnadj (noAdjSlash_drop k child hcadj) ?_
      intro hcontra
      exact hnl hcontra.1

/-- Substituting one value for another in a duplicate-free list keeps it
duplicate-free, provided the new value can only replace the old one. -/
theorem nodup_map_update (l : List Str) (a b : Str) (h : l.Nodup)
    (hb : ∀ x ∈ l, x = b → x = a) :
    (l.map (fun x => if x = a then b else x)).Nodup := by
  induction l with
  | nil => exact List.nodup_nil
  | cons x xs ih =>
    obtain ⟨hx, hxs⟩ := List.nodup_cons.mp h
    by_cases hxa : x = a
    · simp only [List.map_cons, if_pos hxa]
      refine List.nodup_cons.mpr
        ⟨?_, ih hxs (fun z hz => hb z (List.mem_cons_of_mem x hz))⟩
      intro hbmem
      rcases List.mem_map.mp hbmem with ⟨y, hy, hyb⟩
      by_cases hya : y = a
      · rw [← hxa] at hya
        exact hx (hya ▸ hy)
      · rw [if_neg hya] at hyb
        exact hya (hb y (List.mem_cons_of_mem x hy) hyb)
    · simp only [List.map_cons, if_neg hxa]
      refine List.nodup_cons.mpr
        ⟨?_, ih hxs (fun z hz => hb z (List.mem_cons_of_mem x hz))⟩
      intro hxmem
      rcases List.mem_map.mp hxmem with ⟨y, hy, hyx⟩
      by_cases hya : y = a
      · rw [if_pos hya] at hyx
        exact hxa (hb x (List.mem_cons_self x xs) hyx.symm)
      · rw [if_neg hya] at hyx
        rw [← hyx] at hx
        exact hx hy

/-- Appending one row with a fresh canonical path preserves the store
invariant (the insert of `create_directory`/`create_file` after the
existence pre-checks). -/
theorem InvDB_append_row (db : DB) (row : FileRow) (hInv : InvDB db)
    (hfresh : pathExists db row.path = false)
    (hcanrow : canonicalPath row.path = true) :
    InvDB { db with files := db.files ++ [row] } := by
  obtain ⟨hnd, hcanon⟩ := hInv
  constructor
  · simp only [List.map_append, List.map_cons, List.map_nil]
    apply List.Nodup.append hnd (List.nodup_singleton _)
    intro x hx hx2
    simp only [List.mem_singleton] at hx2
    subst hx2
    rcases List.mem_map.mp hx with ⟨r, hr, hrp⟩
    have : pathExists db row.path = true := by
      unfold pathExists
      exact List.any_eq_true.mpr ⟨r, hr, by simp [hrp]⟩
    rw [this] at hfresh
    cases hfresh
  · intro r hr
    rcases List.mem_append.mp hr with h | h
    · exact hcanon r h
    · rw [List.mem_singleton.mp h]
      exact hcanrow

/-- The operation `create_directory` preserves uniqueness and canonical form of stored
paths when the supplied path begins with `/`. -/
theorem create_directory_inv (db : DB) (p : Str) (hInv : InvDB db)
    (habs : p.head? = some '/') : InvDB (create_directory db p).2 := by
  unfold create_directory
  dsimp only
  split
  · rename_i hchk2
    refine InvDB_append_row db _ hInv ?_ (canonicalPath_normalize p habs)
    rcases Bool.and_eq_true_iff.mp hchk2 with ⟨-, h2⟩
    simpa using h2
  · exact hInv

/-- The operation `create_file` preserves uniqueness and canonical form of stored
paths when the supplied path begins with `/`. -/
theorem create_file_inv (db : DB) (p : Str) (content : Bytes)
    (hInv : InvDB db) (habs : p.head? = some '/') :
    InvDB (create_file db p content).2 := by
  unfold create_file
  dsimp only
  split
  · rename_i hchk2
    refine InvDB_append_row db _ hInv ?_ (canonicalPath_normalize p habs)
    rcases Bool.and_eq_true_iff.mp hchk2 with ⟨-, h2⟩
    simpa using h2
  · exact hInv

/-- One UNIQUE-checked path update preserves the store invariant when
the new path is canonical. -/
theorem updatePathChecked_inv (db : DB) (oldP newP newName : Str)
    (newParent : Option Str) (db' : DB)
    (hok : updatePathChecked db oldP newP newName newParent = Except.ok db')
    (hInv : InvDB db) (hcan : canonicalPath newP = true) : InvDB db' := by
  unfold updatePathChecked at hok
  split at hok
  · cases hok
  · rename_i hchk2
    injection hok with hok
    subst hok
    obtain ⟨hnd, hcanon⟩ := hInv
    have hb : ∀ x ∈ db.files.map (fun r => r.path), x = newP → x = oldP := by
      intro x hx hxn
      rcases List.mem_map.mp hx with ⟨r, hr, hrp⟩
      by_contra hxo
      apply hchk2
      refine List.any_eq_true.mpr ⟨r, hr, ?_⟩
      simp [hrp, hxn]
      exact fun hc => hxo (hxn.trans hc)
    constructor
    · dsimp only
      have hmap : (db.files.map (fun r =>
          if r.path = oldP then
            { r with path := newP, name := newName, parent_path := newParent }
          else r)).map (fun r => r.path)
          = (db.files.map (fun r => r.path)).map
              (fun x => if x = oldP then newP else x) := by
        simp only [List.map_map]
        apply List.map_congr_left
        intro r _
        by_cases hro : r.path = oldP
        · simp [hro]
        · simp [hro]
      rw [hmap]
      exact nodup_map_update _ oldP newP hnd hb
    · intro r' hr'
      rcases List.mem_map.mp hr' with ⟨r, hr, hrr⟩
      by_cases hro : r.path = oldP
      · rw [if_pos hro] at hrr
        rw [← hrr]
        exact hcan
      · rw [if_neg hro] at hrr
        rw [← hrr]
        exact hcanon r hr

/-- The rename update loop preserves the store invariant when every new
path it writes is canonical. -/
theorem applyUpdates_inv (updates : List (Str × Str × Str × Option Str)) :
    ∀ (db db' : DB), applyUpdates db updates = Except.ok db' → InvDB db →
      (∀ u ∈ updates, canonicalPath u.2.1 = true) → InvDB db' := by
  induction updates with
  | nil =>
    intro db db' hok hInv _
    injection hok with hok
    rw [← hok]
    exact hInv
  | cons u rest ih =>
    intro db db' hok hInv hcan
    obtain ⟨oldP, newP, newName, newParent⟩ := u
    unfold applyUpdates at hok
    cases hm : updatePathChecked db oldP newP newName newParent with
    | error e =>
      rw [hm] at hok
      cases hok
    | ok db1 =>
      rw [hm] at hok
      refine ih db1 db' hok ?_ (fun v hv => hcan v (List.mem_cons_of_mem _ hv))
      exact updatePathChecked_inv db oldP newP newName newParent db1 hm hInv
        (hcan _ (List.mem_cons_self _ _))

/-- The operation `rename_path` preserves uniqueness and canonical form of stored
paths when the destination path begins with `/` (every failing branch
and the constraint-violation rollback leave the store unchanged; a
successful rename rewrites the old prefix of each affected row with the
canonical normalised destination). -/
theorem rename_path_inv (db : DB) (old_path new_path : Str)
    (hInv : InvDB db) (habs : new_path.head? = some '/') :
    InvDB (rename_path db old_path new_path).2 := by
  unfold rename_path
  dsimp only
  split
  · exact hInv
  · split
    · exact hInv
    · split
      · exact hInv
      · rename_i hex hnex hpok
        have hexT : pathExists db (normalizePath old_path) = true := by
          simpa using hex
        have hnewcan : canonicalPath (normalizePath new_path) = true :=
          canonicalPath_normalize new_path habs
        obtain ⟨rowO, hrowO, hrowOp⟩ :
            ∃ r ∈ db.files, r.path = normalizePath old_path := by
          unfold pathExists at hexT
          rcases List.any_eq_true.mp hexT with ⟨r, hr, hp⟩
          exact ⟨r, hr, by simpa using hp⟩
        have holdcan : canonicalPath (normalizePath old_path) = true := by
          rw [← hrowOp]
          exact hInv.2 rowO hrowO
        have holdne : normalizePath old_path ≠ [] :=
          (canonicalPath_head _ holdcan).1
        have holdlen : 1 ≤ (normalizePath old_path).length := by
          cases hcase : normalizePath old_path with
          | nil => exact absurd hcase holdne
          | cons a l => simp
        have hnnr : normalizePath new_path ≠ pathOf ("/") := by
          intro hr
          rw [hr] at hpok
          exact hpok rfl
        have hTcan : ∀ p ∈ ((db.files.filter (fun r =>
            r.path = normalizePath old_path ||
              likeMatch (normalizePath old_path ++ pathOf ("/%")) r.path)).insertionSort
            (fun a b => b.path.length ≤ a.path.length)).map (fun r => r.path),
            canonicalPath p = true := by
          intro p hp
          rcases List.mem_map.mp hp with ⟨row, hrow, hrp⟩
          have hmem : row ∈ db.files :=
            (List.mem_filter.mp ((List.mem_insertionSort _).mp hrow)).1
          rw [← hrp]
          exact hInv.2 row hmem
        have hcanDir : ∀ (targets : List Str),
            (∀ p ∈ targets, canonicalPath p = true) →
            ∀ u ∈ targets.map (fun p =>
              if p = normalizePath old_path then
                (p, normalizePath new_path,
                  getNameFromPath (normalizePath new_path),
                  getParentPath (normalizePath new_path))
              else
                (p, normalizePath new_path ++
                    p.drop (normalizePath old_path).length,
                  getNameFromPath (normalizePath new_path ++
                    p.drop (normalizePath old_path).length),
                  getParentPath (normalizePath new_path ++
                    p.drop (normalizePath old_path).length))),
              canonicalPath u.2.1 = true := by
          intro targets htg u hu
          rcases List.mem_map.mp hu with ⟨p, hp, hup⟩
          by_cases hpo : p = normalizePath old_path
          · rw [← hup, if_pos hpo]
            exact hnewcan
          · rw [← hup, if_neg hpo]
            exact canonicalPath_concat _ p _ hnewcan hnnr (htg p hp) holdlen
        have hcanFile : ∀ u ∈ [(normalizePath old_path, normalizePath new_path,
            getNameFromPath (normalizePath new_path),
            getParentPath (normalizePath new_path))],
            canonicalPath u.2.1 = true := by
          intro u hu
          rw [List.mem_singleton.mp hu]
          exact hnewcan
        repeat' split
        all_goals try exact hInv
        all_goals rename_i x db' happ hisdir hlen
        all_goals first
          | (rw [if_pos hisdir] at happ
             exact applyUpdates_inv _ db db' happ hInv (hcanDir _ hTcan))
          | (rw [if_neg hisdir] at happ
             exact applyUpdates_inv _ db db' happ hInv hcanFile)

/-- C6, counterexample.  Claimed: every stored path is canonical —
leading `/`, no trailing slash, no empty segments, ASCII-only — for
every path string accepted by the create/rename operations.  The
operations accept relative and non-ASCII paths: `create_file("é", ..)`
succeeds on a fresh store (its computed parent is `/`), and the stored
path `é` has no leading `/` and contains a non-ASCII character. -/
theorem C6_counterexample_noncanonical_path :
    (create_file initDB (pathOf ("é")) [1]).1 = true ∧
    (create_file initDB (pathOf ("é")) [1]).2.files.map (fun r => r.path)
      = [pathOf ("/"), pathOf ("é")] ∧
    canonicalPath (pathOf ("é")) = false ∧
    (pathOf ("é")).head? ≠ some '/' ∧
    (∃ ch ∈ pathOf ("é"), 127 < ch.toNat) := by
  refine ⟨by decide, by decide, by decide, by decide, ?_⟩
  exact ⟨'é', by decide, by decide⟩

/-- C6, amended.  After `create_directory`, `create_file` or
`rename_path` on a store whose paths are unique and canonical, the
stored paths remain unique and canonical — leading `/`, no trailing
slash except root, no empty segments — provided the supplied (for
rename: destination) path begins with `/`.  ASCII-ness is not enforced
by these operations (it is checked by `validate_filename` at the HTTP
layer), and a path supplied without a leading `/` is stored without
one. -/
theorem C6_canonical_invariant (db : DB) (hInv : InvDB db) :
    (∀ p, p.head? = some '/' → InvDB (create_directory db p).2) ∧
    (∀ p content, p.head? = some '/' → InvDB (create_file db p content).2) ∧
    (∀ old new, new.head? = some '/' → InvDB (rename_path db old new).2) := by
  refine ⟨?_, ?_, ?_⟩
  · intro p habs
    exact create_directory_inv db p hInv habs
  · intro p content habs
    exact create_file_inv db p content hInv habs
  · intro old new habs
    exact rename_path_inv db old new hInv habs

/-- Witness for C6 (amended): the invariant evaluated through a create
and through the demonstration rename. -/
theorem C6_witness :
    InvDB (create_directory initDB (pathOf ("/docs"))).2 ∧
    InvDB (create_file initDB (pathOf ("/n.txt")) [1]).2 ∧
    InvDB (rename_path dbDemo (pathOf ("/a")) (pathOf ("/z"))).2 :=
  ⟨(C6_canonical_invariant initDB (by constructor <;> decide)).1
      (pathOf ("/docs")) (by decide),
   (C6_canonical_invariant initDB (by constructor <;> decide)).2.1
      (pathOf ("/n.txt")) [1] (by decide),
   (C6_canonical_invariant dbDemo (by constructor <;> decide)).2.2
      (pathOf ("/a")) (pathOf ("/z")) (by decide)⟩
